import Mathlib

/-!
# Verification of the `RateLimiter` in `dev/install/sct_changelog.py`

The script wraps `requests.get` in a sliding-window rate limiter
(`RateLimiter(get, count, period)`).  This file gives a shallow embedding
of that class and proves the specified properties about it.

Modelling conventions:
* Wall-clock instants and durations (Python floats from `time.time()`)
  are modelled as rationals (`ℚ`), an exact ordered field.
* `self._count` is a Python `int`, modelled as `ℤ`.
* The deque `self._requests` is modelled as a `List ℚ`, oldest first:
  `append` is `++ [x]` at the back, `popleft` takes the head.
* `time.sleep(dt)` advances the clock by exactly `dt`; after the sleep the
  second `time.time()` reading is `now + dt`.  The underlying HTTP call is
  treated as instantaneous.
* The `collections.deque.popleft` `IndexError` on an empty deque is
  modelled by returning `none`.
* A `logging.info` emission is modelled as a `LogEntry` value carrying the
  rendered message text (`"Waiting %.3fs so as to not go over the API rate
  limit" % dt`).
* The wrapped operation `self._get` is an arbitrary function into
  `Except ε β`; `Except.error` models a raised exception.
-/

/-- A log emission of the Python `logging` module, by level, carrying the
rendered message text.  `RateLimiter.get` only ever calls `logging.info`. -/
inductive LogEntry where
  | info : String → LogEntry
  deriving DecidableEq

/-- Rendering of `"%.3f" % q`: the decimal fixed-point form of `q` with
three digits after the point, for a nonnegative `q` (delays are
nonnegative).  `round` is rounding to the nearest integer. -/
def fmt3 (q : ℚ) : String :=
  let n : ℕ := (round (q * 1000)).toNat
  let ip : ℕ := n / 1000
  let fp : ℕ := n % 1000
  toString ip ++ "." ++ (if fp < 10 then "00" else if fp < 100 then "0" else "") ++ toString fp

/-- The rendered text of the log call
`logging.info("Waiting %.3fs so as to not go over the API rate limit", dt)`. -/
def logMessage (dt : ℚ) : String :=
  "Waiting " ++ fmt3 dt ++ "s so as to not go over the API rate limit"

/-- The state of a `RateLimiter` object: the two configuration fields set by
`__init__` and the deque `self._requests` of call-record timestamps
(oldest first).  The wrapped callable `self._get` is not part of the state;
it is passed explicitly to `RateLimiter.getCall`. -/
structure RateLimiter where
  count : ℤ
  period : ℚ
  requests : List ℚ
  deriving DecidableEq

/-- Constructor `RateLimiter.__init__(get, count, period)`: stores the configuration and
starts with an empty deque.  No validation is performed. -/
def RateLimiter.init (count : ℤ) (period : ℚ) : RateLimiter :=
  { count := count, period := period, requests := [] }

/-- One call of `RateLimiter.get`, bookkeeping part, at clock reading `now`
(the value of `time.time()` on entry).  Returns `none` for the `IndexError`
raised by `popleft` on an empty deque; otherwise `some (s', dt, log)` with
the updated state, the imposed sleep duration `dt` (`0` when no sleep
happens), and the log emission if any.  The timestamp appended after a
sleep is the second `time.time()` reading, `now + dt`. -/
def RateLimiter.get (s : RateLimiter) (now : ℚ) :
    Option (RateLimiter × ℚ × Option LogEntry) :=
  if (s.requests.length : ℤ) < s.count then
    some ({ s with requests := s.requests ++ [now] }, 0, none)
  else
    match s.requests with
    | [] => none
    | r :: rest =>
      if now < r + s.period then
        let dt := r + s.period - now
        some ({ s with requests := rest ++ [now + dt] }, dt,
          some (LogEntry.info (logMessage dt)))
      else
        some ({ s with requests := rest ++ [now] }, 0, none)

/-- One call of `RateLimiter.get` including the pass-through call
`return self._get(*args, **kw)`: `f` is the wrapped callable, `x` its
argument tuple, and the fourth component of the result is exactly the
value `f x` returned (or the exception propagated, as `Except.error`)
by the underlying operation. -/
def RateLimiter.getCall {α ε β : Type} (s : RateLimiter) (f : α → Except ε β)
    (x : α) (now : ℚ) :
    Option (RateLimiter × ℚ × Option LogEntry × Except ε β) :=
  if (s.requests.length : ℤ) < s.count then
    some ({ s with requests := s.requests ++ [now] }, 0, none, f x)
  else
    match s.requests with
    | [] => none
    | r :: rest =>
      if now < r + s.period then
        let dt := r + s.period - now
        some ({ s with requests := rest ++ [now + dt] }, dt,
          some (LogEntry.info (logMessage dt)), f x)
      else
        some ({ s with requests := rest ++ [now] }, 0, none, f x)

/-- A sequence of calls to `RateLimiter.get` at the given arrival times
(the `time.time()` readings at entry to each call).  Returns the final
state and, per call, the pair (imposed delay, log emission); `none` if any
call raises. -/
def RateLimiter.run (s : RateLimiter) :
    List ℚ → Option (RateLimiter × List (ℚ × Option LogEntry))
  | [] => some (s, [])
  | t :: ts =>
    match s.get t with
    | none => none
    | some (s1, d, lg) =>
      match s1.run ts with
      | none => none
      | some (s2, out) => some (s2, (d, lg) :: out)

/-- Issue `n` calls to `RateLimiter.get` with zero caller-side delay
starting at clock time `t`: each call arrives the moment the previous one
is admitted (the underlying operation is instantaneous), so call `i+1`
arrives at the admission time `t + dt` of call `i`.  Returns the final
state and the list of admission times. -/
def RateLimiter.runZero (s : RateLimiter) (t : ℚ) :
    ℕ → Option (RateLimiter × List ℚ)
  | 0 => some (s, [])
  | n + 1 =>
    match s.get t with
    | none => none
    | some (s1, d, _) =>
      match s1.runZero (t + d) n with
      | none => none
      | some (s2, as) => some (s2, (t + d) :: as)

/-- Every two entries of `l` that are `k` positions apart differ by at
least `p`: `l` is the timeline of admission times of a limiter with quota
`k` and window `p`. -/
def spaced (k : ℕ) (p : ℚ) (l : List ℚ) : Prop :=
  ∀ i x y, l[i]? = some x → l[i + k]? = some y → x + p ≤ y

/-! ## Helper lemmas -/

/-- Appending a new maximum at the back preserves sortedness. -/
lemma sorted_append_singleton {l : List ℚ} {a : ℚ}
    (hl : l.Sorted (· ≤ ·)) (ha : ∀ x ∈ l, x ≤ a) :
    (l ++ [a]).Sorted (· ≤ ·) := by
  refine List.pairwise_append.mpr ⟨hl, List.pairwise_singleton _ _, ?_⟩
  intro x hx y hy
  rw [List.mem_singleton] at hy
  exact hy ▸ ha x hx

/-- Case analysis of one `RateLimiter.get` step that succeeds. -/
lemma RateLimiter.get_cases {s : RateLimiter} {now : ℚ}
    {s' : RateLimiter} {d : ℚ} {lg : Option LogEntry}
    (h : s.get now = some (s', d, lg)) :
    ((s.requests.length : ℤ) < s.count ∧
      s' = { s with requests := s.requests ++ [now] } ∧ d = 0 ∧ lg = none) ∨
    (∃ r rest, s.requests = r :: rest ∧ s.count ≤ (s.requests.length : ℤ) ∧
      ((now < r + s.period ∧ d = r + s.period - now ∧
          s' = { s with requests := rest ++ [now + d] } ∧
          lg = some (LogEntry.info (logMessage d))) ∨
        (r + s.period ≤ now ∧ d = 0 ∧
          s' = { s with requests := rest ++ [now] } ∧ lg = none))) := by
  unfold RateLimiter.get at h
  split at h
  next hif =>
    simp only [Option.some.injEq, Prod.mk.injEq] at h
    exact Or.inl ⟨hif, h.1.symm, h.2.1.symm, h.2.2.symm⟩
  next hif =>
    split at h
    next hnil => exact absurd h (by simp)
    next r rest hreq =>
      refine Or.inr ⟨r, rest, hreq, not_lt.mp hif, ?_⟩
      split at h
      next hlt =>
        simp only [Option.some.injEq, Prod.mk.injEq] at h
        refine Or.inl ⟨hlt, h.2.1.symm, ?_, ?_⟩
        · rw [← h.2.1]; exact h.1.symm
        · rw [← h.2.1]; exact h.2.2.symm
      next hlt =>
        simp only [Option.some.injEq, Prod.mk.injEq] at h
        exact Or.inr ⟨not_lt.mp hlt, h.2.1.symm, h.1.symm, h.2.2.symm⟩

/-- A successful `get` step preserves the configuration, imposes a
nonnegative delay, preserves sortedness of the record deque, and leaves
every record at most the exit-time clock reading `now + d`. -/
lemma RateLimiter.get_invariant {s : RateLimiter} {now : ℚ}
    {s' : RateLimiter} {d : ℚ} {lg : Option LogEntry}
    (hsort : s.requests.Sorted (· ≤ ·))
    (hb : ∀ x ∈ s.requests, x ≤ now)
    (h : s.get now = some (s', d, lg)) :
    s'.count = s.count ∧ s'.period = s.period ∧ 0 ≤ d ∧
      s'.requests.Sorted (· ≤ ·) ∧ (∀ x ∈ s'.requests, x ≤ now + d) := by
  rcases RateLimiter.get_cases h with ⟨_, hs', hd, _⟩ | ⟨r, rest, hreq, _, hcase⟩
  · subst hs'; subst hd
    refine ⟨rfl, rfl, le_refl 0, sorted_append_singleton hsort hb, ?_⟩
    intro x hx
    rw [List.mem_append, List.mem_singleton] at hx
    rcases hx with hx | hx
    · linarith [hb x hx]
    · simp [hx]
  · have hrest_sorted : rest.Sorted (· ≤ ·) := (List.sorted_cons.mp (hreq ▸ hsort)).2
    have hrest_le : ∀ x ∈ rest, x ≤ now := fun x hx =>
      hb x (hreq ▸ List.mem_cons_of_mem r hx)
    rcases hcase with ⟨hlt, hd, hs', _⟩ | ⟨hge, hd, hs', _⟩
    · subst hs'
      have hdpos : 0 ≤ d := by rw [hd]; linarith
      refine ⟨rfl, rfl, hdpos, ?_, ?_⟩
      · exact sorted_append_singleton hrest_sorted
          (fun x hx => le_add_of_le_of_nonneg (hrest_le x hx) hdpos)
      · intro x hx
        rw [List.mem_append, List.mem_singleton] at hx
        rcases hx with hx | hx
        · linarith [hrest_le x hx]
        · simp [hx]
    · subst hs'; subst hd
      refine ⟨rfl, rfl, le_refl 0, sorted_append_singleton hrest_sorted hrest_le, ?_⟩
      intro x hx
      rw [List.mem_append, List.mem_singleton] at hx
      rcases hx with hx | hx
      · linarith [hrest_le x hx]
      · simp [hx]

/-- With a positive quota, `get` never raises: the `popleft` branch is
only reached when the deque holds at least `count ≥ 1` records. -/
lemma RateLimiter.get_isSome {s : RateLimiter} (now : ℚ) (hc : 1 ≤ s.count) :
    (s.get now).isSome := by
  unfold RateLimiter.get
  split
  · simp
  next hif =>
    cases hreq : s.requests with
    | nil =>
      exfalso
      rw [hreq] at hif
      simp only [List.length_nil, Nat.cast_zero] at hif
      omega
    | cons r rest =>
      by_cases hlt : now < r + s.period <;> simp [hlt]

/-- Running `run` splits over list append. -/
lemma RateLimiter.run_append (s : RateLimiter) (ts1 ts2 : List ℚ) :
    s.run (ts1 ++ ts2) =
      (s.run ts1).bind fun a => (a.1.run ts2).map fun b => (b.1, a.2 ++ b.2) := by
  induction ts1 generalizing s with
  | nil => simp [RateLimiter.run]
  | cons t ts ih =>
    rw [List.cons_append]
    simp only [RateLimiter.run]
    cases s.get t with
    | none => rfl
    | some a =>
      obtain ⟨s1, d, lg⟩ := a
      dsimp only
      rw [ih s1]
      cases s1.run ts with
      | none => rfl
      | some b =>
        obtain ⟨s2, out⟩ := b
        simp only [Option.some_bind, Option.map_map]
        cases s2.run ts2 with
        | none => rfl
        | some c => rfl

/-- A `get` step never changes the configuration fields. -/
lemma RateLimiter.get_config {s : RateLimiter} {now : ℚ}
    {s' : RateLimiter} {d : ℚ} {lg : Option LogEntry}
    (h : s.get now = some (s', d, lg)) :
    s'.count = s.count ∧ s'.period = s.period := by
  rcases RateLimiter.get_cases h with ⟨_, hs', _, _⟩ | ⟨r, rest, _, _, hcase⟩
  · subst hs'; exact ⟨rfl, rfl⟩
  · rcases hcase with ⟨_, _, hs', _⟩ | ⟨_, _, hs', _⟩ <;> subst hs' <;> exact ⟨rfl, rfl⟩

/-- While the deque still has room for the whole call sequence, every call
is admitted with zero delay, no log, and no retirement: the records are
exactly the old records followed by the arrival times. -/
lemma RateLimiter.run_fill (ts : List ℚ) : ∀ s : RateLimiter,
    (s.requests.length + ts.length : ℤ) ≤ s.count →
    s.run ts = some ({ s with requests := s.requests ++ ts },
      ts.map fun _ => ((0 : ℚ), (none : Option LogEntry))) := by
  induction ts with
  | nil => intro s _; simp [RateLimiter.run]
  | cons t ts ih =>
    intro s hlen
    simp only [List.length_cons] at hlen
    have hlt : (s.requests.length : ℤ) < s.count := by push_cast at hlen ⊢; omega
    have hg : s.get t = some ({ s with requests := s.requests ++ [t] }, 0, none) := by
      unfold RateLimiter.get; rw [if_pos hlt]
    simp only [RateLimiter.run, hg]
    have hrec := ih { s with requests := s.requests ++ [t] } (by
      simp only [List.length_append, List.length_singleton]
      push_cast at hlen ⊢; omega)
    rw [hrec]
    simp [List.append_assoc]

/-- The record deque grows by one per call until it reaches `count`, then
stays at exactly `count` entries; the configuration never changes. -/
lemma RateLimiter.run_length (ts : List ℚ) : ∀ (s s' : RateLimiter) out,
    1 ≤ s.count → s.requests.length ≤ s.count.toNat →
    s.run ts = some (s', out) →
    s'.requests.length = min (s.requests.length + ts.length) s.count.toNat ∧
      s'.count = s.count ∧ s'.period = s.period := by
  induction ts with
  | nil =>
    intro s s' out hc hlen h
    simp only [RateLimiter.run, Option.some.injEq, Prod.mk.injEq] at h
    obtain ⟨h1, h2⟩ := h
    subst h1
    refine ⟨?_, rfl, rfl⟩
    simp only [List.length_nil]
    omega
  | cons t ts ih =>
    intro s s' out hc hlen h
    simp only [RateLimiter.run] at h
    cases hg : s.get t with
    | none => rw [hg] at h; exact absurd h (by simp)
    | some a =>
      rw [hg] at h
      obtain ⟨s1, d, lg⟩ := a
      dsimp only at h
      cases hr : s1.run ts with
      | none => rw [hr] at h; exact absurd h (by simp)
      | some b =>
        rw [hr] at h
        obtain ⟨s2, out2⟩ := b
        dsimp only at h
        simp only [Option.some.injEq, Prod.mk.injEq] at h
        have hcfg := RateLimiter.get_config hg
        rcases RateLimiter.get_cases hg with ⟨hif, hs1, _, _⟩ | ⟨r, rest, hreq, hcap, hcase⟩
        · have hlen1 : s1.requests.length = s.requests.length + 1 := by
            rw [hs1]; simp
          have hrec := ih s1 s2 out2 (hcfg.1 ▸ hc)
            (by rw [hlen1, hcfg.1]; omega) hr
          rw [← h.1]
          refine ⟨?_, hrec.2.1.trans hcfg.1, hrec.2.2.trans hcfg.2⟩
          rw [hrec.1, hcfg.1, hlen1]
          simp only [List.length_cons]
          omega
        · have hcnt : s.requests.length = s.count.toNat := by omega
          have hlen1 : s1.requests.length = s.requests.length := by
            rcases hcase with ⟨_, _, hs1, _⟩ | ⟨_, _, hs1, _⟩ <;>
              rw [hs1, hreq] <;> simp
          have hrec := ih s1 s2 out2 (hcfg.1 ▸ hc)
            (by rw [hlen1, hcfg.1]; omega) hr
          rw [← h.1]
          refine ⟨?_, hrec.2.1.trans hcfg.1, hrec.2.2.trans hcfg.2⟩
          rw [hrec.1, hcfg.1, hlen1]
          simp only [List.length_cons]
          omega

/-- With a positive quota, a whole call sequence never raises. -/
lemma RateLimiter.run_total (ts : List ℚ) : ∀ s : RateLimiter, 1 ≤ s.count →
    (s.run ts).isSome := by
  induction ts with
  | nil => intro s _; simp [RateLimiter.run]
  | cons t ts ih =>
    intro s hc
    simp only [RateLimiter.run]
    cases hg : s.get t with
    | none =>
      have := RateLimiter.get_isSome (s := s) t hc
      rw [hg] at this
      exact absurd this (by simp)
    | some a =>
      obtain ⟨s1, d, lg⟩ := a
      dsimp only
      have hc1 : 1 ≤ s1.count := (RateLimiter.get_config hg).1 ▸ hc
      have := ih s1 hc1
      cases hr : s1.run ts with
      | none => rw [hr] at this; exact absurd this (by simp)
      | some b => simp

/-- A list no longer than `k` is trivially `k`-spaced. -/
lemma spaced_of_length_le {k : ℕ} {p : ℚ} {l : List ℚ} (h : l.length ≤ k) :
    spaced k p l := by
  intro i x y _ hy
  rw [List.getElem?_eq_none (by omega)] at hy
  cases hy

/-- Dropping the head preserves spacing. -/
lemma spaced_tail {k : ℕ} {p a : ℚ} {l : List ℚ} (h : spaced k p (a :: l)) :
    spaced k p l := by
  intro i x y hx hy
  refine h (i + 1) x y (by rw [List.getElem?_cons_succ]; exact hx) ?_
  have he : i + 1 + k = (i + k) + 1 := by omega
  rw [he, List.getElem?_cons_succ]
  exact hy

/-- Prepending `r` keeps a list `k`-spaced provided the entry `k - 1`
positions in (the one `k` positions after `r`) is at least `r + p`. -/
lemma spaced_cons {k : ℕ} {p r : ℚ} {l : List ℚ} (hk : 1 ≤ k)
    (h0 : ∀ y, l[k - 1]? = some y → r + p ≤ y)
    (hl : spaced k p l) : spaced k p (r :: l) := by
  intro i x y hx hy
  cases i with
  | zero =>
    rw [List.getElem?_cons_zero, Option.some.injEq] at hx
    have he : 0 + k = (k - 1) + 1 := by omega
    rw [he, List.getElem?_cons_succ] at hy
    rw [← hx]
    exact h0 y hy
  | succ i =>
    rw [List.getElem?_cons_succ] at hx
    have he : i + 1 + k = (i + k) + 1 := by omega
    rw [he, List.getElem?_cons_succ] at hy
    exact hl i x y hx hy

/-- The window-counting bound: a sorted, `k`-spaced list of admission times
has at most `k` entries in any half-open window `(w - p, w]`. -/
lemma windowBound (k : ℕ) (p w : ℚ) :
    ∀ l : List ℚ, l.Sorted (· ≤ ·) → spaced k p l →
      l.countP (fun a => decide (w - p < a ∧ a ≤ w)) ≤ k := by
  intro l
  induction l with
  | nil => intro _ _; simp
  | cons a t ih =>
    intro hsort hsp
    have hsort' : t.Sorted (· ≤ ·) := (List.sorted_cons.mp hsort).2
    have hsp' : spaced k p t := spaced_tail hsp
    rw [List.countP_cons]
    by_cases ha : (w - p < a ∧ a ≤ w)
    · rcases Nat.eq_zero_or_pos k with hk | hk
      · exfalso
        have h00 := hsp 0 a a (by rw [List.getElem?_cons_zero])
          (by rw [hk, Nat.add_zero, List.getElem?_cons_zero])
        linarith [ha.1, ha.2]
      · obtain ⟨m, rfl⟩ : ∃ m, k = m + 1 := ⟨k - 1, by omega⟩
        by_cases hlen : t.length < m + 1
        · have hcle : t.countP (fun a => decide (w - p < a ∧ a ≤ w)) ≤ t.length :=
            List.countP_le_length _
          rw [if_pos (decide_eq_true ha)]
          omega
        · push_neg at hlen
          have hm : m < t.length := by omega
          have hkey := hsp 0 a (t.get ⟨m, hm⟩)
            (by rw [List.getElem?_cons_zero])
            (by
              rw [Nat.zero_add, List.getElem?_cons_succ]
              simp [List.getElem?_eq_getElem hm])
          have hgw : w < t.get ⟨m, hm⟩ := by linarith [ha.1]
          have hdrop_le : ∀ x ∈ t.drop m, t.get ⟨m, hm⟩ ≤ x := by
            intro x hx
            have hdc : t.drop m = t.get ⟨m, hm⟩ :: t.drop (m + 1) := by
              exact List.drop_eq_getElem_cons hm
            rw [hdc] at hx
            rcases List.mem_cons.mp hx with hx | hx
            · exact hx ▸ le_refl _
            · have hds : (t.drop m).Sorted (· ≤ ·) :=
                List.Pairwise.sublist (List.drop_sublist m t) hsort'
              rw [hdc] at hds
              exact List.rel_of_sorted_cons hds x hx
          have hdrop0 : (t.drop m).countP (fun a => decide (w - p < a ∧ a ≤ w)) = 0 := by
            rw [List.countP_eq_zero]
            intro x hx
            have := hdrop_le x hx
            simp only [decide_eq_true_eq, not_and, not_le]
            intro _
            linarith
          have htake : (t.take m).countP (fun a => decide (w - p < a ∧ a ≤ w)) ≤ m := by
            calc (t.take m).countP (fun a => decide (w - p < a ∧ a ≤ w))
                ≤ (t.take m).length := List.countP_le_length _
              _ ≤ m := by simp [List.length_take]
          have hsplit : t.countP (fun a => decide (w - p < a ∧ a ≤ w)) =
              (t.take m).countP (fun a => decide (w - p < a ∧ a ≤ w)) +
                (t.drop m).countP (fun a => decide (w - p < a ∧ a ≤ w)) := by
            rw [← List.countP_append, List.take_append_drop]
          rw [if_pos (decide_eq_true ha)]
          omega
    · rw [if_neg (fun hh => ha (of_decide_eq_true hh)), Nat.add_zero]
      exact ih hsort' hsp'

/-- Main invariant of the zero-caller-side-delay run: starting from a
well-formed state, the stored records followed by the produced admission
times form a sorted, `count`-spaced timeline, and every admission is no
earlier than the starting clock. -/
lemma RateLimiter.runZero_inv (n : ℕ) : ∀ (s : RateLimiter) (t : ℚ)
    (s' : RateLimiter) (as : List ℚ),
    1 ≤ s.count →
    s.requests.length ≤ s.count.toNat →
    s.requests.Sorted (· ≤ ·) →
    (∀ x ∈ s.requests, x ≤ t) →
    s.runZero t n = some (s', as) →
    (s.requests ++ as).Sorted (· ≤ ·) ∧
      spaced s.count.toNat s.period (s.requests ++ as) ∧
      (∀ a ∈ as, t ≤ a) := by
  induction n with
  | zero =>
    intro s t s' as hc hlen hsort hb h
    simp only [RateLimiter.runZero, Option.some.injEq, Prod.mk.injEq] at h
    rw [← h.2, List.append_nil]
    exact ⟨hsort, spaced_of_length_le hlen, by simp⟩
  | succ n ih =>
    intro s t s' as hc hlen hsort hb h
    simp only [RateLimiter.runZero] at h
    cases hg : s.get t with
    | none => rw [hg] at h; exact absurd h (by simp)
    | some a =>
      rw [hg] at h
      obtain ⟨s1, d, lg⟩ := a
      dsimp only at h
      cases hr : s1.runZero (t + d) n with
      | none => rw [hr] at h; exact absurd h (by simp)
      | some b =>
        rw [hr] at h
        obtain ⟨s2, as2⟩ := b
        dsimp only at h
        simp only [Option.some.injEq, Prod.mk.injEq] at h
        obtain ⟨hs2, has⟩ := h
        have hcfg := RateLimiter.get_config hg
        rcases RateLimiter.get_cases hg with ⟨hif, hs1, hd, _⟩ |
          ⟨r, rest, hreq, hcap, hcase⟩
        · -- room in the deque: record `t`, no delay
          subst hd
          have hreq1 : s1.requests = s.requests ++ [t] := by rw [hs1]
          have hrec := ih s1 (t + 0) s2 as2 (hcfg.1 ▸ hc)
            (by rw [hreq1]; simp only [List.length_append, List.length_singleton,
                  hcfg.1]; omega)
            (by rw [hreq1]; exact sorted_append_singleton hsort hb)
            (by
              rw [hreq1]
              intro x hx
              rw [List.mem_append, List.mem_singleton] at hx
              rcases hx with hx | hx
              · linarith [hb x hx]
              · rw [hx, add_zero])
            hr
          have hEq : s.requests ++ ((t + 0) :: as2) = s1.requests ++ as2 := by
            rw [hreq1, add_zero]
            simp
          rw [← has, hEq]
          refine ⟨hrec.1, ?_, ?_⟩
          · rw [← hcfg.1, ← hcfg.2]; exact hrec.2.1
          · intro a hax
            rcases List.mem_cons.mp hax with hax | hax
            · rw [hax, add_zero]
            · linarith [hrec.2.2 a hax]
        · -- deque full: retire the oldest record `r`, admit at `t + d`
          have hcnt : s.requests.length = s.count.toNat := by omega
          have hrl : rest.length + 1 = s.count.toNat := by
            rw [← hcnt, hreq, List.length_cons]
          have hrt : r ≤ t := hb r (by rw [hreq]; exact List.mem_cons_self r rest)
          obtain ⟨hreq1, hrp, hd0⟩ :
              s1.requests = rest ++ [t + d] ∧ r + s.period ≤ t + d ∧ 0 ≤ d := by
            rcases hcase with ⟨hlt, hd, hs1, _⟩ | ⟨hge, hd, hs1, _⟩
            · refine ⟨by rw [hs1], by rw [hd]; linarith, by rw [hd]; linarith⟩
            · refine ⟨by rw [hs1, hd, add_zero], ?_, by rw [hd]⟩
              rw [hd, add_zero]
              exact hge
          have hrest_sorted : rest.Sorted (· ≤ ·) :=
            (List.sorted_cons.mp (hreq ▸ hsort)).2
          have hrest_le : ∀ x ∈ rest, x ≤ t := fun x hx =>
            hb x (hreq ▸ List.mem_cons_of_mem r hx)
          have hrec := ih s1 (t + d) s2 as2 (hcfg.1 ▸ hc)
            (by rw [hreq1]; simp only [List.length_append, List.length_singleton,
                  hcfg.1]; omega)
            (by
              rw [hreq1]
              exact sorted_append_singleton hrest_sorted
                (fun x hx => by linarith [hrest_le x hx]))
            (by
              rw [hreq1]
              intro x hx
              rw [List.mem_append, List.mem_singleton] at hx
              rcases hx with hx | hx
              · linarith [hrest_le x hx]
              · rw [hx])
            hr
          have hEq : s1.requests ++ as2 = rest ++ ((t + d) :: as2) := by
            rw [hreq1]
            simp
          have hgoalEq : s.requests ++ ((t + d) :: as2) =
              r :: (rest ++ ((t + d) :: as2)) := by
            rw [hreq]
            simp
          rw [← has, hgoalEq]
          have hmem_le : ∀ b ∈ rest ++ ((t + d) :: as2), r ≤ b := by
            intro x hx
            rw [List.mem_append, List.mem_cons] at hx
            rcases hx with hx | hx | hx
            · exact List.rel_of_sorted_cons (hreq ▸ hsort) x hx
            · rw [hx]; linarith
            · have := hrec.2.2 x hx; linarith
          refine ⟨?_, ?_, ?_⟩
          · exact List.sorted_cons.mpr ⟨hmem_le, hEq ▸ hrec.1⟩
          · refine spaced_cons (by omega) ?_ ?_
            · intro y hy
              have hidx : s.count.toNat - 1 = rest.length := by omega
              rw [hidx, List.getElem?_append_right (le_refl rest.length),
                Nat.sub_self, List.getElem?_cons_zero, Option.some.injEq] at hy
              rw [← hy]
              exact hrp
            · have := hrec.2.1
              rw [hcfg.1, hcfg.2, hEq] at this
              exact this
          · intro a hax
            rcases List.mem_cons.mp hax with hax | hax
            · rw [hax]; linarith
            · have := hrec.2.2 a hax; linarith

/-! ## Claim theorems -/

/-- C4: for every invocation of `RateLimiter.get` (with the wrapped
operation `f` and argument `x`), the value returned is exactly `f x` — the
value returned by the underlying operation on those same arguments — and a
raised exception (`Except.error`) propagates unchanged: the limiter never
transforms, caches, retries, or intercepts the result. -/
theorem rateLimiter_pass_through {α ε β : Type} (s : RateLimiter)
    (f : α → Except ε β) (x : α) (now : ℚ)
    (out : RateLimiter × ℚ × Option LogEntry × Except ε β)
    (h : s.getCall f x now = some out) :
    out.2.2.2 = f x := by
  unfold RateLimiter.getCall at h
  split at h
  next =>
    simp only [Option.some.injEq] at h
    rw [← h]
  next =>
    split at h
    next => exact absurd h (by simp)
    next r rest hreq =>
      split at h
      next =>
        simp only [Option.some.injEq] at h
        rw [← h]
      next =>
        simp only [Option.some.injEq] at h
        rw [← h]

/-- Witness for C4: a concrete successful call returns the wrapped
function's value, and a concrete failing call propagates the error. -/
theorem rateLimiter_pass_through_witness :
    ((⟨1, 1, [0]⟩ : RateLimiter), (0 : ℚ), (none : Option LogEntry),
        (Except.ok 6 : Except String ℕ)).2.2.2 =
      (fun n : ℕ => (Except.ok (n + 1) : Except String ℕ)) 5 ∧
    ((⟨1, 1, [0]⟩ : RateLimiter), (0 : ℚ), (none : Option LogEntry),
        (Except.error "boom" : Except String ℕ)).2.2.2 =
      (fun _ : ℕ => (Except.error "boom" : Except String ℕ)) 5 := by
  constructor
  · exact rateLimiter_pass_through (RateLimiter.init 1 1)
      (fun n : ℕ => (Except.ok (n + 1) : Except String ℕ)) 5 0 _
      (by norm_num [RateLimiter.getCall, RateLimiter.init])
  · exact rateLimiter_pass_through (RateLimiter.init 1 1)
      (fun _ : ℕ => (Except.error "boom" : Except String ℕ)) 5 0 _
      (by norm_num [RateLimiter.getCall, RateLimiter.init])

/-- C6: for every call sequence run from a fresh limiter with quota
`count ≥ 1`, the record deque grows by one per call until it reaches
`count` and thereafter stays at exactly `count` entries — its size after
the run is `min (number of calls) count`, so it never exceeds `count`
(intermediate states are final states of prefix runs). -/
theorem rateLimiter_bounded_size (c : ℤ) (p : ℚ) (ts : List ℚ)
    (s' : RateLimiter) (out : List (ℚ × Option LogEntry)) (hc : 1 ≤ c)
    (h : (RateLimiter.init c p).run ts = some (s', out)) :
    s'.requests.length = min ts.length c.toNat := by
  have hlen := RateLimiter.run_length ts (RateLimiter.init c p) s' out hc
    (by simp [RateLimiter.init]) h
  simpa [RateLimiter.init] using hlen.1

/-- Witness for C6: five calls against quota 3 leave exactly 3 records. -/
theorem rateLimiter_bounded_size_witness :
    ([(2 : ℚ), 13, 20] : List ℚ).length = min ([0, 1, 2, 13, 20] : List ℚ).length (3 : ℤ).toNat := by
  have h := rateLimiter_bounded_size 3 10 [0, 1, 2, 13, 20] ⟨3, 10, [2, 13, 20]⟩
    [(0, none), (0, none), (0, none),
      ((0 : ℚ), (none : Option LogEntry)),
      ((0 : ℚ), (none : Option LogEntry))] (by norm_num)
    (by norm_num [RateLimiter.run, RateLimiter.get, RateLimiter.init])
  exact h

/-- C7: the limiter's behaviour is a deterministic function of its
configuration and the arrival times alone: two independent instances with
the same `count` and `period`, fed the same timed call sequence, produce
the same delay schedule, and a single step's state-and-delay evolution is
independent of the wrapped operation and its result. -/
theorem rateLimiter_deterministic_schedule (c : ℤ) (p : ℚ) (ts : List ℚ)
    (s1 s2 : RateLimiter)
    (h1 : s1 = RateLimiter.init c p) (h2 : s2 = RateLimiter.init c p) :
    s1.run ts = s2.run ts ∧
      ∀ (α ε β α2 ε2 β2 : Type) (f : α → Except ε β) (g : α2 → Except ε2 β2)
        (x : α) (y : α2) (now : ℚ),
        (s1.getCall f x now).map (fun o => (o.1, o.2.1)) =
          (s1.getCall g y now).map (fun o => (o.1, o.2.1)) := by
  constructor
  · rw [h1, h2]
  · intro α ε β α2 ε2 β2 f g x y now
    unfold RateLimiter.getCall
    split
    · rfl
    · split
      · rfl
      · split
        · rfl
        · rfl

/-- Witness for C7: two fresh limiters with `count = 3`, `period = 10` on
the arrival times `0, 0, 0, 1` agree, as do steps wrapping different
operations. -/
theorem rateLimiter_deterministic_schedule_witness :
    (RateLimiter.init 3 10).run [0, 0, 0, 1] = (RateLimiter.init 3 10).run [0, 0, 0, 1] ∧
      ∀ (α ε β α2 ε2 β2 : Type) (f : α → Except ε β) (g : α2 → Except ε2 β2)
        (x : α) (y : α2) (now : ℚ),
        ((RateLimiter.init 3 10).getCall f x now).map (fun o => (o.1, o.2.1)) =
          ((RateLimiter.init 3 10).getCall g y now).map (fun o => (o.1, o.2.1)) :=
  rateLimiter_deterministic_schedule 3 10 [0, 0, 0, 1]
    (RateLimiter.init 3 10) (RateLimiter.init 3 10) rfl rfl

/-- C9: `RateLimiter.__init__` performs no validation, so construction
with `count ≤ 0` succeeds, but then the very first call to `get` hits the
`popleft`-on-empty-deque error (the deque is empty yet not shorter than
`count`), modelled as `none`; conversely with `count ≥ 1` the removal
branch always finds a nonempty deque, so no call in any run ever hits that
error. -/
theorem rateLimiter_invalid_count :
    (∀ (c : ℤ) (p now : ℚ), c ≤ 0 → (RateLimiter.init c p).get now = none) ∧
      (∀ (c : ℤ) (p : ℚ) (ts : List ℚ), 1 ≤ c →
        ((RateLimiter.init c p).run ts).isSome) := by
  constructor
  · intro c p now hc
    unfold RateLimiter.get RateLimiter.init
    rw [if_neg (by simp only [List.length_nil, Nat.cast_zero]; omega)]
  · intro c p ts hc
    exact RateLimiter.run_total ts _ hc

/-- Witness for C9: `count = 0` fails on the first call; `count = 1`
completes a two-call run. -/
theorem rateLimiter_invalid_count_witness :
    (RateLimiter.init 0 1).get 0 = none ∧
      ((RateLimiter.init 1 1).run [0, 5]).isSome :=
  ⟨rateLimiter_invalid_count.1 0 1 0 (by norm_num),
    rateLimiter_invalid_count.2 1 1 [0, 5] (by norm_num)⟩

/-- C10: with a monotone time source (every stored timestamp is at most
the current reading `now`), the record deque stays sorted oldest-first
after any call to `get`, and every stored timestamp is at most the
exit-time reading `now + d` — records are only appended at the back with
the current time and removed from the front. -/
theorem rateLimiter_monotone_sorted (s : RateLimiter) (now : ℚ)
    (s' : RateLimiter) (d : ℚ) (lg : Option LogEntry)
    (hsort : s.requests.Sorted (· ≤ ·))
    (hmono : ∀ x ∈ s.requests, x ≤ now)
    (h : s.get now = some (s', d, lg)) :
    s'.requests.Sorted (· ≤ ·) ∧ ∀ x ∈ s'.requests, x ≤ now + d := by
  have hinv := RateLimiter.get_invariant hsort hmono h
  exact ⟨hinv.2.2.2.1, hinv.2.2.2.2⟩

/-- Witness for C10: a full deque `[0, 1]` at `now = 3` with
`period = 5` becomes `[1, 5]`, still sorted and bounded by `now + d = 5`. -/
theorem rateLimiter_monotone_sorted_witness :
    ([1, 5] : List ℚ).Sorted (· ≤ ·) ∧ ∀ x ∈ ([1, 5] : List ℚ), x ≤ (3 : ℚ) + 2 := by
  have h := rateLimiter_monotone_sorted ⟨2, 5, [0, 1]⟩ 3 ⟨2, 5, [1, 5]⟩ 2
    (some (LogEntry.info (logMessage 2)))
    (by norm_num [List.sorted_cons])
    (by norm_num [List.forall_mem_cons])
    (by norm_num [RateLimiter.get])
  exact h

/-- C2: when `get` arrives with the deque holding exactly `count` records
and the oldest record `r` satisfies `now < r + period`, the imposed delay
is exactly `r + period - now` (and the call is admitted at `r + period`,
the appended record); in particular with `count = 3`, `period = 10` and
arrivals `0, 0, 0, 1` the first three calls are admitted immediately and
the fourth is delayed exactly `9`, its admission record being `10`. -/
theorem rateLimiter_delay_exact (s : RateLimiter) (now r : ℚ) (rest : List ℚ)
    (hreq : s.requests = r :: rest)
    (hfull : (s.requests.length : ℤ) = s.count)
    (hlt : now < r + s.period) :
    s.get now = some
        ({ s with requests := rest ++ [now + (r + s.period - now)] },
          r + s.period - now,
          some (LogEntry.info (logMessage (r + s.period - now)))) ∧
      (RateLimiter.run (RateLimiter.init 3 10) [0, 0, 0, 1]).map
          (fun o => (o.2.map Prod.fst, o.1.requests)) =
        some ([0, 0, 0, 9], [0, 0, 10]) := by
  constructor
  · unfold RateLimiter.get
    rw [if_neg (by omega), hreq]
    dsimp only
    rw [if_pos hlt]
  · norm_num [RateLimiter.run, RateLimiter.get, RateLimiter.init]

/-- Witness for C2: the state `⟨3, 10, [0, 0, 0]⟩` at `now = 1` imposes
delay `9` and admits at `10`. -/
theorem rateLimiter_delay_exact_witness :
    RateLimiter.get ⟨3, 10, [0, 0, 0]⟩ 1 = some
        (⟨3, 10, [0, 0, 1 + ((0 : ℚ) + 10 - 1)]⟩,
          (0 : ℚ) + 10 - 1,
          some (LogEntry.info (logMessage ((0 : ℚ) + 10 - 1)))) ∧
      (RateLimiter.run (RateLimiter.init 3 10) [0, 0, 0, 1]).map
          (fun o => (o.2.map Prod.fst, o.1.requests)) =
        some ([0, 0, 0, 9], [0, 0, 10]) :=
  rateLimiter_delay_exact ⟨3, 10, [0, 0, 0]⟩ 1 0 [0, 0] rfl (by norm_num)
    (by norm_num)

/-- C5: once the deque is at capacity, the admission decision of `get` is
based on exactly the single oldest record `r`: whatever the outcome,
exactly that one record is retired and exactly one new record is appended
— even when the call is admitted immediately with no delay — and the
remaining records keep their order. -/
theorem rateLimiter_fifo_retirement (s : RateLimiter) (now r : ℚ)
    (rest : List ℚ) (hreq : s.requests = r :: rest)
    (hcap : s.count ≤ (s.requests.length : ℤ)) :
    s.get now = some
      ({ s with requests :=
          rest ++ [now + (if now < r + s.period then r + s.period - now else 0)] },
        (if now < r + s.period then r + s.period - now else 0),
        if now < r + s.period then
          some (LogEntry.info (logMessage (r + s.period - now)))
        else none) := by
  unfold RateLimiter.get
  rw [if_neg (by omega), hreq]
  dsimp only
  by_cases hlt : now < r + s.period
  · rw [if_pos hlt, if_pos hlt, if_pos hlt]
  · rw [if_neg hlt, if_neg hlt, if_neg hlt, add_zero]

/-- Witness for C5: at capacity with oldest record `0` already expired
(`now = 12 ≥ 0 + 10`), the oldest record alone is retired and `now` is
appended with zero delay. -/
theorem rateLimiter_fifo_retirement_witness :
    RateLimiter.get ⟨2, 10, [0, 5]⟩ 12 = some
      (⟨2, 10, [5, 12 + (if (12 : ℚ) < 0 + 10 then (0 : ℚ) + 10 - 12 else 0)]⟩,
        (if (12 : ℚ) < 0 + 10 then (0 : ℚ) + 10 - 12 else 0),
        if (12 : ℚ) < 0 + 10 then
          some (LogEntry.info (logMessage ((0 : ℚ) + 10 - 12)))
        else none) :=
  rateLimiter_fifo_retirement ⟨2, 10, [0, 5]⟩ 12 0 [5] rfl (by norm_num)

/-- C8 (amended): `get` emits exactly one informational log entry when and
only when a positive delay is imposed, and its rendered text is
`"Waiting <delay formatted with three decimals>s so as to not go over the
API rate limit"`; undelayed admissions emit nothing. -/
theorem rateLimiter_log_iff_delay (s : RateLimiter) (now : ℚ)
    (s' : RateLimiter) (d : ℚ) (lg : Option LogEntry)
    (h : s.get now = some (s', d, lg)) :
    0 ≤ d ∧
      lg = if 0 < d then some (LogEntry.info (logMessage d)) else none := by
  rcases RateLimiter.get_cases h with ⟨_, _, hd, hlg⟩ |
    ⟨r, rest, _, _, ⟨hlt, hd, _, hlg⟩ | ⟨_, hd, _, hlg⟩⟩
  · subst hd
    exact ⟨le_refl 0, by rw [hlg, if_neg (lt_irrefl 0)]⟩
  · have hdpos : 0 < d := by rw [hd]; linarith
    exact ⟨le_of_lt hdpos, by rw [hlg, if_pos hdpos]⟩
  · subst hd
    exact ⟨le_refl 0, by rw [hlg, if_neg (lt_irrefl 0)]⟩

/-- Witness for C8: the delayed call of the `count = 3`, `period = 10`
scenario logs, with delay `9`. -/
theorem rateLimiter_log_iff_delay_witness :
    (0 : ℚ) ≤ 9 ∧
      (some (LogEntry.info (logMessage 9)) : Option LogEntry) =
        if (0 : ℚ) < 9 then some (LogEntry.info (logMessage 9)) else none :=
  rateLimiter_log_iff_delay ⟨3, 10, [0, 0, 0]⟩ 1 ⟨3, 10, [0, 0, 10]⟩ 9
    (some (LogEntry.info (logMessage 9)))
    (by norm_num [RateLimiter.get])

/-- Counterexample for C8 as stated: the log line actually emitted on the
delayed call is `"Waiting 9.000s so as to not go over the API rate
limit"`, which is not of the claimed form
`"waiting <seconds> so as not to exceed the rate limit."` for any
rendering of the seconds (it does not even start with a lowercase `w`). -/
theorem rateLimiter_log_text_counterexample :
    RateLimiter.get ⟨3, 10, [0, 0, 0]⟩ 1 = some
        (⟨3, 10, [0, 0, 10]⟩, 9, some (LogEntry.info (logMessage 9))) ∧
      ¬ ∃ mid : String, logMessage 9 =
          "waiting " ++ mid ++ " so as not to exceed the rate limit." := by
  constructor
  · norm_num [RateLimiter.get]
  · rintro ⟨mid, hmsg⟩
    have hW : (logMessage 9).data.head? = some 'W' := by
      unfold logMessage
      rw [String.data_append, String.data_append]
      have hlit : ("Waiting ".data : List Char) = 'W' :: "aiting ".data := by decide
      rw [hlit, List.cons_append, List.cons_append, List.head?_cons]
    have hw : (logMessage 9).data.head? = some 'w' := by
      rw [hmsg, String.data_append, String.data_append]
      have hlit : ("waiting ".data : List Char) = 'w' :: "aiting ".data := by decide
      rw [hlit, List.cons_append, List.cons_append, List.head?_cons]
    rw [hW] at hw
    exact absurd (Option.some.inj hw) (by decide)

/-- C1: admission bound — for every sequence of calls issued with zero
caller-side delay against a fresh limiter with quota `count ≥ 1`, no
sliding window of length `period` ever contains more than `count` admitted
calls: for every `w`, at most `count` admission times lie in the window
`(w - period, w]` (the code's own window convention: a record exactly
`period` old is already outside the window, since `get` sleeps only while
`now < oldest + period`). -/
theorem rateLimiter_admission_bound (c : ℤ) (p t0 : ℚ) (n : ℕ)
    (s' : RateLimiter) (as : List ℚ) (hc : 1 ≤ c)
    (h : (RateLimiter.init c p).runZero t0 n = some (s', as)) (w : ℚ) :
    (as.filter fun a => decide (w - p < a ∧ a ≤ w)).length ≤ c.toNat := by
  have hinv := RateLimiter.runZero_inv n (RateLimiter.init c p) t0 s' as hc
    (by simp [RateLimiter.init]) (by simp [RateLimiter.init])
    (by simp [RateLimiter.init]) h
  rw [← List.countP_eq_length_filter]
  have h1 := hinv.1
  have h2 := hinv.2.1
  simp only [RateLimiter.init, List.nil_append] at h1 h2
  exact windowBound c.toNat p w as h1 h2

/-- Witness for C1: two back-to-back calls against quota 1, window 1,
admitted at times `0` and `1`; any window of length 1 holds at most one. -/
theorem rateLimiter_admission_bound_witness :
    (1 : ℤ) ≤ 1 ∧
      (RateLimiter.init 1 1).runZero 0 2 = some (⟨1, 1, [1]⟩, [0, 1]) ∧
      (([0, 1] : List ℚ).filter fun a =>
        decide ((0 : ℚ) - 1 < a ∧ a ≤ 0)).length ≤ (1 : ℤ).toNat :=
  ⟨le_refl 1,
    by norm_num [RateLimiter.runZero, RateLimiter.get, RateLimiter.init],
    rateLimiter_admission_bound 1 1 0 2 ⟨1, 1, [1]⟩ [0, 1] (by norm_num)
      (by norm_num [RateLimiter.runZero, RateLimiter.get, RateLimiter.init]) 0⟩

/-- C3: for every call sequence against a fresh limiter, while fewer than
`count` calls have been admitted overall each new call is admitted
immediately: the first `count` outputs carry zero delay and no log, and as
long as the whole sequence fits under the quota no record is ever retired
— the deque is exactly the arrival times in order. -/
theorem rateLimiter_no_unnecessary_delay (c : ℤ) (p : ℚ) (ts : List ℚ)
    (s' : RateLimiter) (out : List (ℚ × Option LogEntry))
    (h : (RateLimiter.init c p).run ts = some (s', out)) :
    (∀ pr ∈ out.take c.toNat, pr = ((0 : ℚ), (none : Option LogEntry))) ∧
      ((ts.length : ℤ) ≤ c →
        s'.requests = ts ∧
          out = ts.map fun _ => ((0 : ℚ), (none : Option LogEntry))) := by
  constructor
  · by_cases hc0 : 0 ≤ c
    · have htk : ((ts.take c.toNat).length : ℤ) ≤ c := by
        have h1 : (ts.take c.toNat).length ≤ c.toNat := List.length_take_le _ _
        omega
      have hfill := RateLimiter.run_fill (ts.take c.toNat) (RateLimiter.init c p)
        (by simpa [RateLimiter.init] using htk)
      have hsplit := RateLimiter.run_append (RateLimiter.init c p)
        (ts.take c.toNat) (ts.drop c.toNat)
      rw [List.take_append_drop, h, hfill] at hsplit
      simp only [Option.some_bind] at hsplit
      have hsplit' := hsplit.symm
      rw [Option.map_eq_some'] at hsplit'
      obtain ⟨b, hb, hfb⟩ := hsplit'
      have hout : out =
          ((ts.take c.toNat).map fun _ => ((0 : ℚ), (none : Option LogEntry)))
            ++ b.2 := by
        have := congrArg Prod.snd hfb
        exact this.symm
      intro pr hpr
      rw [hout, List.take_append_eq_append_take] at hpr
      rcases List.mem_append.mp hpr with hpr | hpr
      · have hmem := List.take_subset _ _ hpr
        obtain ⟨a, _, ha⟩ := List.mem_map.mp hmem
        exact ha.symm
      · exfalso
        by_cases hlen : ts.length ≤ c.toNat
        · have hdrop : ts.drop c.toNat = [] := List.drop_eq_nil_iff.mpr hlen
          rw [hdrop] at hb
          simp only [RateLimiter.run, Option.some.injEq] at hb
          rw [← hb] at hpr
          simp at hpr
        · have hzlen :
              ((ts.take c.toNat).map fun _ =>
                ((0 : ℚ), (none : Option LogEntry))).length = c.toNat := by
            simp only [List.length_map, List.length_take]
            omega
          rw [hzlen, Nat.sub_self, List.take_zero] at hpr
          cases hpr
    · intro pr hpr
      rw [Int.toNat_of_nonpos (by omega), List.take_zero] at hpr
      cases hpr
  · intro hlen
    have hfill := RateLimiter.run_fill ts (RateLimiter.init c p)
      (by simpa [RateLimiter.init] using hlen)
    rw [h] at hfill
    simp only [Option.some.injEq, Prod.mk.injEq] at hfill
    refine ⟨?_, hfill.2⟩
    rw [hfill.1]
    simp [RateLimiter.init]

/-- Witness for C3: three arrivals against quota 3 (period 10): all three
outputs are `(0, no log)` and the deque ends as the arrival times. -/
theorem rateLimiter_no_unnecessary_delay_witness :
    (∀ pr ∈ ([((0 : ℚ), (none : Option LogEntry)), (0, none), (0, none)].take
        (3 : ℤ).toNat),
      pr = ((0 : ℚ), (none : Option LogEntry))) ∧
      ((([0, 4, 7] : List ℚ).length : ℤ) ≤ 3 →
        ([0, 4, 7] : List ℚ) = [0, 4, 7] ∧
          ([((0 : ℚ), (none : Option LogEntry)), (0, none), (0, none)]
              : List (ℚ × Option LogEntry)) =
            ([0, 4, 7] : List ℚ).map fun _ =>
              ((0 : ℚ), (none : Option LogEntry))) :=
  rateLimiter_no_unnecessary_delay 3 10 [0, 4, 7] ⟨3, 10, [0, 4, 7]⟩
    [(0, none), (0, none), (0, none)]
    (by norm_num [RateLimiter.run, RateLimiter.get, RateLimiter.init])
